import Mathlib

/-!
# Verification of the `qclib` state-vector quantum simulator

This file gives a shallow embedding of the state-vector engine implemented in
`qclib/qclib.py` (class `qcsim`) and proves or refutes the specification claims
about it.

Two layers are used:

* a typed layer over `Matrix (Fin (2^n)) (Fin (2^n)) ℂ`, modelling the
  behaviour of the engine on well-shaped inputs (permutation matrices,
  operator stretching, gate application, measurement);
* an untyped layer (`NPMat`, matrices with explicit `rows`/`cols` fields and a
  total entry function) modelling the numpy-level shape checks and the order of
  the mutations of the simulator object, used for the error-handling claims.

Floating point numbers are modelled by real numbers; `random.random()` is an
explicit `toss` parameter.
-/

open Matrix

namespace QCLib

noncomputable section

/-- `maxerr = 0.000001` from `qcsim.__init__`. -/
def maxerr : ℝ := 1 / 1000000

/-- `maxproberr = 0.000001` from `qcsim.__init__`. -/
def maxproberr : ℝ := 1 / 1000000

/-!
## Permutation algebra (`__shuffled_count`, `__rmat_rrmat`, `__qbit_realign_list`)
-/

/-- The inner loop of `__shuffled_count`: starting from `shfval = 0`, for each
`b in range(sz)` execute `dstbit = bitorder[sz-b-1]; shfval += ((i >> b) & 0x1) << dstbit`. -/
def shfval (n : ℕ) (bitorder : List ℕ) (i : ℕ) : ℕ :=
  (List.range n).foldl (fun acc b => acc + (((i >>> b) &&& 1) <<< bitorder.getD (n - b - 1) 0)) 0

/-- `__shuffled_count(bitorder)`: the list whose `i`-th entry (for `i in range(2**sz)`)
is the shuffled counterpart `shfval` of `i`. -/
def shuffled_count (n : ℕ) (bitorder : List ℕ) : List ℕ :=
  (List.range (2 ^ n)).map (shfval n bitorder)

/-- The matrix `rmat` built by `__rmat_rrmat`: row `i` of `rmat` is row `rr[i]` of the
identity matrix (`rmat[i] = imat[s]` with `s = rr[i]`). -/
def rmat (n : ℕ) (bitorder : List ℕ) : Matrix (Fin (2 ^ n)) (Fin (2 ^ n)) ℂ :=
  Matrix.of fun i j => if (shuffled_count n bitorder).getD (i : ℕ) 0 = (j : ℕ) then 1 else 0

/-- One numpy row assignment `M[s] = imat[t]`: row `s` of `M` becomes the standard basis
row `e_t`; all other rows are unchanged. -/
def setRow {N : ℕ} (M : Matrix (Fin N) (Fin N) ℂ) (s : ℕ) (t : Fin N) :
    Matrix (Fin N) (Fin N) ℂ :=
  Matrix.of fun r c => if (r : ℕ) = s then (if c = t then 1 else 0) else M r c

/-- The matrix `rrmat` built by `__rmat_rrmat`: starting from the identity matrix,
for each `i in range(2**nqbits)` execute `rrmat[s] = imat[i]` with `s = rr[i]`. -/
def rrmat (n : ℕ) (bitorder : List ℕ) : Matrix (Fin (2 ^ n)) (Fin (2 ^ n)) ℂ :=
  (List.finRange (2 ^ n)).foldl
    (fun acc i => setRow acc ((shuffled_count n bitorder).getD i.val 0) i) 1

/-- `__qbit_realign_list(qbit_list)`: a copy of `qbit_list` to which every `i` in
`reversed(range(nqbits))` not already present is appended. -/
def qbit_realign_list (n : ℕ) (qbit_list : List ℕ) : List ℕ :=
  (List.range n).reverse.foldl (fun reord i => if i ∈ reord then reord else reord ++ [i])
    qbit_list

/-!
### Arithmetic form of `shfval`
-/

theorem foldl_add_eq_sum (g : ℕ → ℕ) (l : List ℕ) (a : ℕ) :
    l.foldl (fun acc b => acc + g b) a = a + (l.map g).sum := by
  induction l generalizing a with
  | nil => simp
  | cons x xs ih => simp [ih, add_assoc]

theorem shfval_eq_sum (n : ℕ) (bo : List ℕ) (i : ℕ) :
    shfval n bo i = ∑ b ∈ Finset.range n, i / 2 ^ b % 2 * 2 ^ bo.getD (n - b - 1) 0 := by
  unfold shfval
  rw [foldl_add_eq_sum, zero_add]
  simp only [Nat.shiftLeft_eq, Nat.and_one_is_mod, Nat.shiftRight_eq_div_pow]
  rfl

theorem finFunEquiv_symm_val {n : ℕ} (a : Fin (2 ^ n)) (b : Fin n) :
    ((finFunctionFinEquiv.symm a) b : ℕ) = (a : ℕ) / 2 ^ (b : ℕ) % 2 := by
  simp [finFunctionFinEquiv]

/-- For a valid full ordering of the qubit indices, the index map computed by
`__shuffled_count` agrees with a bijection on `[0, 2^n)`: bit `b` of the source
index is moved to bit position `bitorder[n-b-1]`, and since `bitorder` is a
permutation of `[0, n)` the destinations are distinct. -/
theorem shfval_equiv (n : ℕ) (bo : List ℕ) (h : List.Perm bo (List.range n)) :
    ∃ FF : Fin (2 ^ n) ≃ Fin (2 ^ n), ∀ i : Fin (2 ^ n), shfval n bo (i : ℕ) = ((FF i) : ℕ) := by
  have hlen : bo.length = n := by simpa using h.length_eq
  have hnd : bo.Nodup := h.nodup_iff.mpr (List.nodup_range n)
  have hmem : ∀ x ∈ bo, x < n := fun x hx => List.mem_range.mp (h.subset hx)
  have hget : ∀ b : Fin n, bo.getD (b : ℕ) 0 < n := by
    intro b
    have hb : (b : ℕ) < bo.length := by rw [hlen]; exact b.isLt
    rw [List.getD_eq_getElem bo 0 hb]
    exact hmem _ (List.getElem_mem hb)
  have hginj : Function.Injective
      (fun b : Fin n => (⟨bo.getD ((b.rev : Fin n) : ℕ) 0, hget b.rev⟩ : Fin n)) := by
    intro a b hab
    have hv : bo.getD ((a.rev : Fin n) : ℕ) 0 = bo.getD ((b.rev : Fin n) : ℕ) 0 :=
      congrArg Fin.val hab
    have ha : ((a.rev : Fin n) : ℕ) < bo.length := by rw [hlen]; exact (Fin.rev a).isLt
    have hb : ((b.rev : Fin n) : ℕ) < bo.length := by rw [hlen]; exact (Fin.rev b).isLt
    rw [List.getD_eq_getElem bo 0 ha, List.getD_eq_getElem bo 0 hb] at hv
    exact Fin.rev_injective (Fin.ext ((List.Nodup.getElem_inj_iff hnd).mp hv))
  set e : Fin n ≃ Fin n :=
    Equiv.ofBijective _ (Finite.injective_iff_bijective.mp hginj) with he
  refine ⟨finFunctionFinEquiv.symm.trans ((Equiv.arrowCongr e (Equiv.refl (Fin 2))).trans
    finFunctionFinEquiv), ?_⟩
  intro i
  rw [shfval_eq_sum, ← Fin.sum_univ_eq_sum_range]
  simp only [Equiv.trans_apply, Equiv.arrowCongr_apply, Equiv.coe_refl]
  rw [finFunctionFinEquiv_apply]
  refine Fintype.sum_equiv e _ _ fun b => ?_
  simp only [Equiv.arrowCongr_apply, Function.comp_apply, Equiv.coe_refl, id_eq,
    Equiv.symm_apply_apply]
  rw [finFunEquiv_symm_val]
  congr 1

theorem shuffled_count_getD (n : ℕ) (bo : List ℕ) (i : ℕ) (hi : i < 2 ^ n) :
    (shuffled_count n bo).getD i 0 = shfval n bo i := by
  unfold shuffled_count
  rw [List.getD_eq_getElem _ _ (by simpa using hi)]
  simp

/-- Row `i` of `rmat` is the standard basis row selected by the shuffled index. -/
theorem rmat_apply_of (n : ℕ) (bo : List ℕ) (FF : Fin (2 ^ n) ≃ Fin (2 ^ n))
    (hFF : ∀ i : Fin (2 ^ n), shfval n bo (i : ℕ) = ((FF i) : ℕ)) (i j : Fin (2 ^ n)) :
    rmat n bo i j = if FF i = j then 1 else 0 := by
  unfold rmat
  rw [Matrix.of_apply, shuffled_count_getD n bo _ i.isLt, hFF]
  simp [Fin.val_eq_val]

theorem foldl_setRow_char {N : ℕ} (rr : Fin N → Fin N) (hinj : Function.Injective rr)
    (l : List (Fin N)) (M0 : Matrix (Fin N) (Fin N) ℂ) (s c : Fin N) :
    (l.foldl (fun acc i => setRow acc (rr i).val i) M0) s c =
      if ∃ i ∈ l, rr i = s then (if c ∈ l ∧ rr c = s then 1 else 0) else M0 s c := by
  induction l generalizing M0 with
  | nil => simp
  | cons x xs ih =>
    rw [List.foldl_cons, ih]
    by_cases hxs : ∃ i ∈ xs, rr i = s
    · have hex : ∃ i ∈ x :: xs, rr i = s := by
        obtain ⟨i, hi, hri⟩ := hxs
        exact ⟨i, List.mem_cons_of_mem _ hi, hri⟩
      rw [if_pos hxs, if_pos hex]
      have hiff : (c ∈ xs ∧ rr c = s) ↔ (c ∈ x :: xs ∧ rr c = s) := by
        constructor
        · rintro ⟨hc, hrc⟩
          exact ⟨List.mem_cons_of_mem _ hc, hrc⟩
        · rintro ⟨hc, hrc⟩
          rcases List.mem_cons.mp hc with hcx | hcxs
          · obtain ⟨i, hi, hri⟩ := hxs
            have hci : c = i := hinj (by rw [hrc, hri])
            exact ⟨hci ▸ hi, hrc⟩
          · exact ⟨hcxs, hrc⟩
      rw [if_congr hiff rfl rfl]
    · rw [if_neg hxs]
      by_cases hx : rr x = s
      · rw [if_pos ⟨x, List.mem_cons_self x xs, hx⟩]
        unfold setRow
        rw [Matrix.of_apply, if_pos (congrArg Fin.val hx).symm]
        have hiff : (c = x) ↔ (c ∈ x :: xs ∧ rr c = s) := by
          constructor
          · rintro rfl
            exact ⟨List.mem_cons_self _ _, hx⟩
          · rintro ⟨hc, hrc⟩
            exact hinj (by rw [hrc, hx])
        rw [if_congr hiff rfl rfl]
      · have hnex : ¬∃ i ∈ x :: xs, rr i = s := by
          rintro ⟨i, hi, hri⟩
          rcases List.mem_cons.mp hi with hix | hixs
          · exact hx (hix ▸ hri)
          · exact hxs ⟨i, hixs, hri⟩
        rw [if_neg hnex]
        unfold setRow
        rw [Matrix.of_apply, if_neg (fun hv => hx (Fin.ext hv).symm)]

/-- Row `s` of `rrmat`: after all the assignments `rrmat[rr[i]] = imat[i]`, entry
`(s, c)` is `1` exactly when the shuffled index of `c` is `s`. -/
theorem rrmat_apply_of (n : ℕ) (bo : List ℕ) (FF : Fin (2 ^ n) ≃ Fin (2 ^ n))
    (hFF : ∀ i : Fin (2 ^ n), shfval n bo (i : ℕ) = ((FF i) : ℕ)) (s c : Fin (2 ^ n)) :
    rrmat n bo s c = if FF c = s then 1 else 0 := by
  unfold rrmat
  have hfun : (fun (acc : Matrix (Fin (2 ^ n)) (Fin (2 ^ n)) ℂ) (i : Fin (2 ^ n)) =>
        setRow acc ((shuffled_count n bo).getD i.val 0) i)
      = fun (acc : Matrix (Fin (2 ^ n)) (Fin (2 ^ n)) ℂ) (i : Fin (2 ^ n)) =>
        setRow acc ((fun j => FF j) i).val i := by
    funext acc i
    rw [shuffled_count_getD n bo _ i.isLt, hFF]
  rw [hfun, foldl_setRow_char (fun j => FF j) FF.injective (List.finRange (2 ^ n)) 1 s c]
  rw [if_pos ⟨FF.symm s, List.mem_finRange _, FF.apply_symm_apply s⟩]
  exact if_congr ⟨fun h => h.2, fun hrc => ⟨List.mem_finRange _, hrc⟩⟩ rfl rfl

/-- `rmat * rrmat = 1` for a valid full ordering. -/
theorem rmat_mul_rrmat (n : ℕ) (bo : List ℕ) (h : List.Perm bo (List.range n)) :
    rmat n bo * rrmat n bo = 1 := by
  obtain ⟨FF, hFF⟩ := shfval_equiv n bo h
  ext i k
  rw [Matrix.mul_apply, Matrix.one_apply]
  have hsum : ∀ j : Fin (2 ^ n), rmat n bo i j * rrmat n bo j k
      = if j = FF i then (if FF k = j then (1 : ℂ) else 0) else 0 := by
    intro j
    rw [rmat_apply_of n bo FF hFF, rrmat_apply_of n bo FF hFF]
    by_cases hj : FF i = j
    · rw [if_pos hj, one_mul, if_pos (show j = FF i from hj.symm)]
    · rw [if_neg hj, zero_mul, if_neg (show ¬j = FF i from fun hh => hj hh.symm)]
  rw [Finset.sum_congr rfl fun j _ => hsum j,
    Finset.sum_ite_eq' Finset.univ (FF i) (fun j => if FF k = j then (1 : ℂ) else 0)]
  simp only [Finset.mem_univ, if_true, FF.apply_eq_iff_eq]
  by_cases hik : i = k
  · rw [if_pos hik.symm, if_pos hik]
  · rw [if_neg (fun hh => hik hh.symm), if_neg hik]

/-- `rrmat * rmat = 1` for a valid full ordering. -/
theorem rrmat_mul_rmat (n : ℕ) (bo : List ℕ) (h : List.Perm bo (List.range n)) :
    rrmat n bo * rmat n bo = 1 := by
  obtain ⟨FF, hFF⟩ := shfval_equiv n bo h
  ext s t
  rw [Matrix.mul_apply, Matrix.one_apply]
  have hsum : ∀ j : Fin (2 ^ n), rrmat n bo s j * rmat n bo j t
      = if j = FF.symm s then (if FF j = t then (1 : ℂ) else 0) else 0 := by
    intro j
    rw [rmat_apply_of n bo FF hFF, rrmat_apply_of n bo FF hFF]
    by_cases hj : FF j = s
    · rw [if_pos hj, one_mul,
        if_pos (show j = FF.symm s from by rw [← hj, Equiv.symm_apply_apply])]
    · rw [if_neg hj, zero_mul,
        if_neg (show ¬j = FF.symm s from fun hh => hj (by rw [hh, Equiv.apply_symm_apply]))]
  rw [Finset.sum_congr rfl fun j _ => hsum j,
    Finset.sum_ite_eq' Finset.univ (FF.symm s) (fun j => if FF j = t then (1 : ℂ) else 0)]
  simp only [Finset.mem_univ, if_true, Equiv.apply_symm_apply]

/-- C1. For every number of qubits `n`, every valid full ordering of the qubit
indices, and every basis-state index `x` in `[0, 2^n)`, the permutation pair built
from that ordering by `__rmat_rrmat` satisfies `inverse(forward(x)) == x`: the
matrices `rmat` (forward) and `rrmat` (inverse) are mutual inverses, so applying
the forward and then the inverse matrix restores every state vector, in particular
every basis index, exactly. -/
theorem rmat_rrmat_mutual_inverses (n : ℕ) (bo : List ℕ)
    (h : List.Perm bo (List.range n)) :
    rmat n bo * rrmat n bo = 1 ∧ rrmat n bo * rmat n bo = 1 ∧
      ∀ v : Fin (2 ^ n) → ℂ, (rrmat n bo).mulVec ((rmat n bo).mulVec v) = v := by
  refine ⟨rmat_mul_rrmat n bo h, rrmat_mul_rmat n bo h, fun v => ?_⟩
  rw [Matrix.mulVec_mulVec, rrmat_mul_rmat n bo h, Matrix.one_mulVec]

/-- Instance of `rmat_rrmat_mutual_inverses` at `n = 2` with the ordering `[1, 0]`. -/
theorem rmat_rrmat_mutual_inverses_witness :
    rmat 2 [1, 0] * rrmat 2 [1, 0] = 1 ∧ rrmat 2 [1, 0] * rmat 2 [1, 0] = 1 ∧
      (rrmat 2 [1, 0]).mulVec ((rmat 2 [1, 0]).mulVec fun _ => 1) = fun _ => 1 :=
  ⟨(rmat_rrmat_mutual_inverses 2 [1, 0] (by decide)).1,
    (rmat_rrmat_mutual_inverses 2 [1, 0] (by decide)).2.1,
    (rmat_rrmat_mutual_inverses 2 [1, 0] (by decide)).2.2 fun _ => 1⟩

/-!
### `__qbit_realign_list` produces a permutation of `[0, n)`
-/

theorem realign_foldl_aux (L : List ℕ) (init : List ℕ) (hinit : init.Nodup) :
    (L.foldl (fun reord i => if i ∈ reord then reord else reord ++ [i]) init).Nodup ∧
      ∀ x, x ∈ L.foldl (fun reord i => if i ∈ reord then reord else reord ++ [i]) init ↔
        x ∈ init ∨ x ∈ L := by
  induction L generalizing init with
  | nil => simp [hinit]
  | cons a L ih =>
    rw [List.foldl_cons]
    by_cases ha : a ∈ init
    · rw [if_pos ha]
      obtain ⟨h1, h2⟩ := ih init hinit
      refine ⟨h1, fun x => ?_⟩
      rw [h2]
      constructor
      · rintro (hx | hx)
        · exact Or.inl hx
        · exact Or.inr (List.mem_cons_of_mem _ hx)
      · rintro (hx | hx)
        · exact Or.inl hx
        · rcases List.mem_cons.mp hx with rfl | hx
          · exact Or.inl ha
          · exact Or.inr hx
    · rw [if_neg ha]
      have hnd : (init ++ [a]).Nodup := by
        simp [List.nodup_append, hinit, ha]
      obtain ⟨h1, h2⟩ := ih (init ++ [a]) hnd
      refine ⟨h1, fun x => ?_⟩
      rw [h2]
      simp only [List.mem_append, List.mem_singleton, List.mem_cons]
      tauto

/-- For a duplicate-free in-range target list, the full ordering built by
`__qbit_realign_list` is a permutation of `[0, n)`. -/
theorem qbit_realign_list_perm (n : ℕ) (l : List ℕ) (hnd : l.Nodup)
    (hlt : ∀ x ∈ l, x < n) : List.Perm (qbit_realign_list n l) (List.range n) := by
  obtain ⟨h1, h2⟩ := realign_foldl_aux (List.range n).reverse l hnd
  refine (List.perm_ext_iff_of_nodup h1 (List.nodup_range n)).mpr fun x => ?_
  rw [h2 x]
  simp only [List.mem_reverse, List.mem_range]
  exact ⟨fun hx => hx.elim (hlt x) id, fun hx => Or.inr hx⟩

/-!
## Operator stretching (`__aligned_op`, `__stretched_mat`, `qgate`)
-/

/-- numpy `kron` for complex matrices, expressed on flattened indices:
for `B` of shape `(p, q)`, `kron(A, B)[i, j] = A[i / p, j / q] * B[i % p, j % q]`. -/
def npkron {a b p q : ℕ} (A : Matrix (Fin a) (Fin b) ℂ) (B : Matrix (Fin p) (Fin q) ℂ) :
    Matrix (Fin (a * p)) (Fin (b * q)) ℂ :=
  Matrix.of fun u v =>
    have hap : 0 < a * p := u.pos
    have hbq : 0 < b * q := v.pos
    have hp : 0 < p := Nat.pos_of_ne_zero fun h => by
      rw [h, Nat.mul_zero] at hap
      exact Nat.lt_irrefl 0 hap
    have hq : 0 < q := Nat.pos_of_ne_zero fun h => by
      rw [h, Nat.mul_zero] at hbq
      exact Nat.lt_irrefl 0 hbq
    A ⟨u.val / p, (Nat.div_lt_iff_lt_mul hp).mpr u.isLt⟩
        ⟨v.val / q, (Nat.div_lt_iff_lt_mul hq).mpr v.isLt⟩ *
      B ⟨u.val % p, Nat.mod_lt _ hp⟩ ⟨v.val % q, Nat.mod_lt _ hq⟩

/-- Dimension cast `2^k * 2^(n-k) = 2^n`. -/
theorem pow_split (n k : ℕ) (hk : k ≤ n) : 2 ^ k * 2 ^ (n - k) = 2 ^ n := by
  rw [← pow_add]
  congr 1
  omega

/-- Pure index cast between two equal matrix dimensions. -/
def castM {m N : ℕ} (h : m = N) (M : Matrix (Fin m) (Fin m) ℂ) :
    Matrix (Fin N) (Fin N) ℂ :=
  Matrix.reindex (finCongr h) (finCongr h) M

/-- `__aligned_op(op, qbit_list)`: conjugation `rrmat * op * rmat` by the permutation
pair built for the realigned qubit list. -/
def aligned_op (n : ℕ) (op : Matrix (Fin (2 ^ n)) (Fin (2 ^ n)) ℂ) (qbit_list : List ℕ) :
    Matrix (Fin (2 ^ n)) (Fin (2 ^ n)) ℂ :=
  rrmat n (qbit_realign_list n qbit_list) * op * rmat n (qbit_realign_list n qbit_list)

/-- `__stretched_mat(oper, qbit_list)` after its two shape checks succeed:
`c_op = kron(op, eye(2^(nqbits - len(qbit_list))))`, then `__aligned_op`.
The shape checks and the error paths are modelled by `qgateU` in the untyped layer. -/
def stretched_mat (n : ℕ) (qbit_list : List ℕ) (hk : qbit_list.length ≤ n)
    (op : Matrix (Fin (2 ^ qbit_list.length)) (Fin (2 ^ qbit_list.length)) ℂ) :
    Matrix (Fin (2 ^ n)) (Fin (2 ^ n)) ℂ :=
  aligned_op n
    (castM (pow_split n qbit_list.length hk)
      (npkron op
        (1 : Matrix (Fin (2 ^ (n - qbit_list.length))) (Fin (2 ^ (n - qbit_list.length))) ℂ)))
    qbit_list

/-- The mutable state of a `qcsim` object: the step counter and the state vector. -/
structure SimSt (n : ℕ) where
  stepcount : ℕ
  sys_state : Fin (2 ^ n) → ℂ

/-- `qgate(oper, qbit_list)` on well-shaped input: `stepcount += 1`, then
`sys_state = __stretched_mat(oper, qbit_list) * sys_state`. -/
def qgate (n : ℕ) (sim : SimSt n) (qbit_list : List ℕ) (hk : qbit_list.length ≤ n)
    (op : Matrix (Fin (2 ^ qbit_list.length)) (Fin (2 ^ qbit_list.length)) ℂ) : SimSt n :=
  { stepcount := sim.stepcount + 1
    sys_state := (stretched_mat n qbit_list hk op).mulVec sim.sys_state }

/-- Specification-side statement of step 3 of `OperatorEmbedder.embed` (spec §4.2):
the small operator tensored with `Identity(2^(n-k))` so that it occupies the
high-order block: entry `(u, v)` is `op[u >> (n-k), v >> (n-k)]` when the low
`n-k` bits of `u` and `v` coincide, and `0` otherwise. -/
def expandedOperatorSpec (n k : ℕ) (hk : k ≤ n)
    (op : Matrix (Fin (2 ^ k)) (Fin (2 ^ k)) ℂ) :
    Matrix (Fin (2 ^ n)) (Fin (2 ^ n)) ℂ :=
  Matrix.of fun u v =>
    if u.val % 2 ^ (n - k) = v.val % 2 ^ (n - k) then
      op ⟨u.val / 2 ^ (n - k), by
          refine (Nat.div_lt_iff_lt_mul (Nat.two_pow_pos (n - k))).mpr ?_
          rw [pow_split n k hk]
          exact u.isLt⟩
        ⟨v.val / 2 ^ (n - k), by
          refine (Nat.div_lt_iff_lt_mul (Nat.two_pow_pos (n - k))).mpr ?_
          rw [pow_split n k hk]
          exact v.isLt⟩
    else 0

theorem castM_npkron_eq_expandedOperatorSpec (n k : ℕ) (hk : k ≤ n)
    (op : Matrix (Fin (2 ^ k)) (Fin (2 ^ k)) ℂ) :
    castM (pow_split n k hk)
        (npkron op (1 : Matrix (Fin (2 ^ (n - k))) (Fin (2 ^ (n - k))) ℂ)) =
      expandedOperatorSpec n k hk op := by
  ext u v
  simp only [castM, npkron, expandedOperatorSpec, Matrix.reindex_apply, Matrix.submatrix_apply,
    Matrix.of_apply, Matrix.one_apply, mul_ite, mul_one, mul_zero, finCongr_symm,
    finCongr_apply, Fin.coe_cast, Fin.mk_eq_mk]

/-- C2. For every square operator of dimension `2^k` and every target list of `k`
qubit indices with `k ≤ n`, the embedded full-size operator built by
`__stretched_mat` equals `inverse * (operator ⊗ Identity(2^(n-k))) * forward`,
where the small operator occupies the high-order block of the tensor product and
`(forward, inverse) = (rmat, rrmat)` is the permutation pair built for the target
list; and `qgate` left-multiplies the state vector by exactly this matrix. -/
theorem stretched_mat_conjugated_embedding (n : ℕ) (qbit_list : List ℕ)
    (hk : qbit_list.length ≤ n)
    (op : Matrix (Fin (2 ^ qbit_list.length)) (Fin (2 ^ qbit_list.length)) ℂ)
    (sim : SimSt n) :
    stretched_mat n qbit_list hk op =
        rrmat n (qbit_realign_list n qbit_list) *
          expandedOperatorSpec n qbit_list.length hk op *
          rmat n (qbit_realign_list n qbit_list) ∧
      (qgate n sim qbit_list hk op).sys_state =
        (stretched_mat n qbit_list hk op).mulVec sim.sys_state := by
  refine ⟨?_, rfl⟩
  unfold stretched_mat aligned_op
  rw [castM_npkron_eq_expandedOperatorSpec]

/-- Instance of `stretched_mat_conjugated_embedding` at `n = 2`, target `[0]`,
operator the 2-dimensional identity, on the zero state vector. -/
theorem stretched_mat_conjugated_embedding_witness :
    stretched_mat 2 [0] (by decide)
        (1 : Matrix (Fin (2 ^ ([0] : List ℕ).length)) (Fin (2 ^ ([0] : List ℕ).length)) ℂ) =
        rrmat 2 (qbit_realign_list 2 [0]) *
          expandedOperatorSpec 2 ([0] : List ℕ).length (by decide) 1 *
          rmat 2 (qbit_realign_list 2 [0]) ∧
      (qgate 2 ⟨0, fun _ => 0⟩ [0] (by decide) 1).sys_state =
        (stretched_mat 2 [0] (by decide) 1).mulVec (fun _ => 0) :=
  stretched_mat_conjugated_embedding 2 [0] (by decide) 1 ⟨0, fun _ => 0⟩

/-!
### Unitarity of the stretched operator; `qgate` preserves normalization
-/

theorem rmat_conjTranspose (n : ℕ) (bo : List ℕ) (h : List.Perm bo (List.range n)) :
    (rmat n bo)ᴴ = rrmat n bo := by
  obtain ⟨FF, hFF⟩ := shfval_equiv n bo h
  ext s c
  rw [Matrix.conjTranspose_apply, rmat_apply_of n bo FF hFF, rrmat_apply_of n bo FF hFF]
  by_cases hc : FF c = s
  · rw [if_pos hc]
    exact star_one ℂ
  · rw [if_neg hc]
    exact star_zero ℂ

theorem rrmat_conjTranspose (n : ℕ) (bo : List ℕ) (h : List.Perm bo (List.range n)) :
    (rrmat n bo)ᴴ = rmat n bo := by
  rw [← rmat_conjTranspose n bo h, Matrix.conjTranspose_conjTranspose]

theorem kroneckerMap_mul_conjTranspose {a p : ℕ} (A : Matrix (Fin a) (Fin a) ℂ)
    (B : Matrix (Fin p) (Fin p) ℂ) :
    (Matrix.kroneckerMap (· * ·) A B)ᴴ = Matrix.kroneckerMap (· * ·) Aᴴ Bᴴ := by
  ext x y
  obtain ⟨i, r⟩ := x
  obtain ⟨j, s⟩ := y
  simp [Matrix.kroneckerMap_apply, Matrix.conjTranspose_apply, mul_comm]

theorem castM_npkron_submatrix (n k : ℕ) (hk : k ≤ n)
    (A : Matrix (Fin (2 ^ k)) (Fin (2 ^ k)) ℂ)
    (B : Matrix (Fin (2 ^ (n - k))) (Fin (2 ^ (n - k))) ℂ) :
    castM (pow_split n k hk) (npkron A B) =
      (Matrix.kroneckerMap (· * ·) A B).submatrix
        (finProdFinEquiv.trans (finCongr (pow_split n k hk))).symm
        (finProdFinEquiv.trans (finCongr (pow_split n k hk))).symm := by
  ext u v
  rfl

theorem castM_npkron_unitary (n k : ℕ) (hk : k ≤ n)
    (U : Matrix (Fin (2 ^ k)) (Fin (2 ^ k)) ℂ) (hU : Uᴴ * U = 1) :
    (castM (pow_split n k hk)
          (npkron U (1 : Matrix (Fin (2 ^ (n - k))) (Fin (2 ^ (n - k))) ℂ)))ᴴ *
        castM (pow_split n k hk)
          (npkron U (1 : Matrix (Fin (2 ^ (n - k))) (Fin (2 ^ (n - k))) ℂ)) = 1 := by
  rw [castM_npkron_submatrix n k hk U 1, Matrix.conjTranspose_submatrix,
    kroneckerMap_mul_conjTranspose, Matrix.submatrix_mul_equiv, ← Matrix.mul_kronecker_mul,
    hU, Matrix.conjTranspose_one, Matrix.one_mul, Matrix.one_kronecker_one,
    Matrix.submatrix_one_equiv]

theorem stretched_mat_unitary (n : ℕ) (qbit_list : List ℕ) (hk : qbit_list.length ≤ n)
    (hnd : qbit_list.Nodup) (hlt : ∀ x ∈ qbit_list, x < n)
    (U : Matrix (Fin (2 ^ qbit_list.length)) (Fin (2 ^ qbit_list.length)) ℂ)
    (hU : Uᴴ * U = 1) :
    (stretched_mat n qbit_list hk U)ᴴ * stretched_mat n qbit_list hk U = 1 := by
  have hperm := qbit_realign_list_perm n qbit_list hnd hlt
  have hKU := castM_npkron_unitary n qbit_list.length hk U hU
  unfold stretched_mat aligned_op
  rw [Matrix.conjTranspose_mul, Matrix.conjTranspose_mul]
  rw [rmat_conjTranspose n _ hperm, rrmat_conjTranspose n _ hperm]
  simp only [Matrix.mul_assoc]
  rw [← Matrix.mul_assoc (rmat n (qbit_realign_list n qbit_list))
    (rrmat n (qbit_realign_list n qbit_list)), rmat_mul_rrmat n _ hperm, Matrix.one_mul]
  rw [← Matrix.mul_assoc _ (castM (pow_split n qbit_list.length hk) (npkron U 1)), hKU,
    Matrix.one_mul]
  exact rrmat_mul_rmat n _ hperm

/-- `Σ |amplitude|²` over a state vector, as in the engine's normalization checks. -/
def sumNormSq {N : ℕ} (v : Fin N → ℂ) : ℝ := ∑ i, Complex.normSq (v i)

theorem star_dotProduct_self {N : ℕ} (w : Fin N → ℂ) :
    star w ⬝ᵥ w = (sumNormSq w : ℂ) := by
  unfold sumNormSq dotProduct
  push_cast
  refine Finset.sum_congr rfl fun i _ => ?_
  rw [Pi.star_apply, Complex.star_def, mul_comm, Complex.mul_conj]

theorem sumNormSq_mulVec_of_unitary {N : ℕ} (M : Matrix (Fin N) (Fin N) ℂ)
    (hM : Mᴴ * M = 1) (v : Fin N → ℂ) :
    sumNormSq (M.mulVec v) = sumNormSq v := by
  have key : star (M.mulVec v) ⬝ᵥ M.mulVec v = star v ⬝ᵥ v := by
    rw [Matrix.star_mulVec, Matrix.dotProduct_mulVec, Matrix.vecMul_vecMul, hM,
      Matrix.vecMul_one]
  rw [star_dotProduct_self (M.mulVec v), star_dotProduct_self v] at key
  exact_mod_cast key

/-- C3. For every unitary operator `U` and every valid target-qubit list, applying
the gate preserves the state's normalization: if `Σ|amplitude|² = 1` within
`ε = 1e-6` before the call, then it is still `1` within `ε` after
`qgate(U, targets)`. -/
theorem qgate_preserves_normalization (n : ℕ) (qbit_list : List ℕ)
    (hk : qbit_list.length ≤ n) (hnd : qbit_list.Nodup) (hlt : ∀ x ∈ qbit_list, x < n)
    (U : Matrix (Fin (2 ^ qbit_list.length)) (Fin (2 ^ qbit_list.length)) ℂ)
    (hU : Uᴴ * U = 1) (sim : SimSt n)
    (hnorm : |sumNormSq sim.sys_state - 1| ≤ maxerr) :
    |sumNormSq (qgate n sim qbit_list hk U).sys_state - 1| ≤ maxerr := by
  have hpres : sumNormSq (qgate n sim qbit_list hk U).sys_state = sumNormSq sim.sys_state :=
    sumNormSq_mulVec_of_unitary _ (stretched_mat_unitary n qbit_list hk hnd hlt U hU) _
  rw [hpres]
  exact hnorm

/-- Instance of `qgate_preserves_normalization`: `n = 1`, identity gate on qubit 0,
state `|0⟩`. -/
theorem qgate_preserves_normalization_witness :
    |sumNormSq (qgate 1 ⟨0, fun i => if i = 0 then 1 else 0⟩ [0] (by decide) 1).sys_state - 1|
      ≤ maxerr :=
  qgate_preserves_normalization 1 [0] (by decide) (by decide) (by decide) 1 (by simp)
    ⟨0, fun i => if i = 0 then 1 else 0⟩
    (by
      show |(∑ x : Fin 2, Complex.normSq (if x = 0 then 1 else 0)) - 1| ≤ maxerr
      norm_num [Fin.sum_univ_two, maxerr])

/-!
## Operator algebra (`qcombine_seq`, `qinverse`)
-/

/-- `qcombine_seq(name, op_list)` on same-dimension square operators: starting from
`res = eye(d)`, execute `res = op * res` for each operator in list order, so the
first listed operator ends up as the rightmost factor. The dimension checks of the
source are trivially satisfied in this typed layer. -/
def qcombine_seq {d : ℕ} (op_list : List (Matrix (Fin d) (Fin d) ℂ)) :
    Matrix (Fin d) (Fin d) ℂ :=
  op_list.foldl (fun res op => op * res) 1

/-- `qinverse(op)`: `np.conjugate(np.transpose(mat))`, the conjugate transpose. -/
def qinverse {d : ℕ} (op : Matrix (Fin d) (Fin d) ℂ) : Matrix (Fin d) (Fin d) ℂ :=
  op.transpose.map star

/-- C8. For every unitary operator `U`, composing `U` with `invert(U)` via
`sequential` yields the identity operator within `ε`: `qinverse` computes the
conjugate transpose, `qcombine_seq` matrix-multiplies the listed operators in
reverse list order, and the product `qinverse(U) * U` is exactly the identity,
hence entrywise within `maxerr` of it. -/
theorem qinverse_seq_identity {d : ℕ} (U : Matrix (Fin d) (Fin d) ℂ)
    (hU : U * Uᴴ = 1) (i j : Fin d) :
    qcombine_seq [U, qinverse U] = 1 ∧
      Complex.abs ((qcombine_seq [U, qinverse U]) i j - (1 : Matrix (Fin d) (Fin d) ℂ) i j)
        ≤ maxerr := by
  have heq : qcombine_seq [U, qinverse U] = 1 := by
    unfold qcombine_seq qinverse
    simp only [List.foldl_cons, List.foldl_nil]
    rw [Matrix.mul_one]
    have hct : U.transpose.map star = Uᴴ := rfl
    rw [hct]
    exact Matrix.mul_eq_one_comm.mp hU
  refine ⟨heq, ?_⟩
  rw [heq]
  norm_num [maxerr]

/-- Instance of `qinverse_seq_identity` for the 2-dimensional identity operator at
entry `(0, 1)`. -/
theorem qinverse_seq_identity_witness :
    qcombine_seq [(1 : Matrix (Fin 2) (Fin 2) ℂ), qinverse 1] = 1 ∧
      Complex.abs ((qcombine_seq [(1 : Matrix (Fin 2) (Fin 2) ℂ), qinverse 1]) 0 1 -
        (1 : Matrix (Fin 2) (Fin 2) ℂ) 0 1) ≤ maxerr :=
  qinverse_seq_identity 1 (by simp) 0 1

/-!
## Measurement (`qmeasure`)

The random draw `rnd.random()` is passed explicitly as `toss`; the engine errors
are values of `QErr`.
-/

/-- The errors raised as `QClibError` by `qmeasure` (the spec's `InvalidBasisError`
and the fatal total-probability check). -/
inductive QErr where
  | basisNotOrthonormal : QErr
  | totalProbability : QErr
deriving DecidableEq

/-- The basis validation (lines 91-104): `pmat = np.dot(bmat, np.transpose(bmat))`
(plain transpose, not conjugate transpose); accepted iff every diagonal entry of
`pmat` is within `maxerr` of `1` and every off-diagonal entry is within `maxerr`
of `0`. -/
def basis_ok {m : ℕ} (B : Matrix (Fin m) (Fin m) ℂ) : Prop :=
  ∀ i j : Fin m,
    if i = j then Complex.abs ((B * B.transpose) i j - 1) ≤ maxerr
    else Complex.abs ((B * B.transpose) i j) ≤ maxerr

/-- Lines 118-120: `qbitmask |= 0x1 << (nqbits - b - 1)` for `b in range(len(qbit_list))`:
a mask of the top `k` bit positions. -/
def qbitmask (n k : ℕ) : ℕ :=
  (List.range k).foldl (fun m b => m ||| (1 <<< (n - b - 1))) 0

/-- Lines 124-127: the outcome distribution. Amplitude index `i` contributes
`|amplitude_i|²` to bucket `(i & qbitmask) >> (nqbits - len(qbit_list))`. -/
def qm_probs (n k : ℕ) (st : Fin (2 ^ n) → ℂ) : List ℝ :=
  (List.range (2 ^ k)).map fun idx =>
    ∑ i : Fin (2 ^ n),
      if (i.val &&& qbitmask n k) >>> (n - k) = idx then Complex.normSq (st i) else 0

/-- Lines 136-144: outcome selection. `sel` starts at `len(prob) - 1` and, scanning
buckets in index order with a running `cumprob`, is set to `i` whenever
`toss > cumprob and toss <= cumprob + prob[i]`. -/
def qm_select (toss : ℝ) (prob : List ℝ) : ℕ :=
  (prob.enum.foldl
    (fun st ip => (if toss > st.2 ∧ toss ≤ st.2 + ip.2 then ip.1 else st.1, st.2 + ip.2))
    (prob.length - 1, (0 : ℝ))).1

/-- Lines 146-151: decode the selected bucket into a bit list, most significant bit
first: for `i in reversed(range(len(qbit_list)))` append `0` if `sel & (1 << i) == 0`
else `1`. -/
def qm_ret (k sel : ℕ) : List ℕ :=
  (List.range k).reverse.map fun i => if sel &&& (1 <<< i) = 0 then 0 else 1

/-- Line 109: `sys_state = rmat * sys_state`, aligning the measured qubits to the
most significant bit positions. -/
def qm_state1 (n : ℕ) (qbit_list : List ℕ) (st0 : Fin (2 ^ n) → ℂ) : Fin (2 ^ n) → ℂ :=
  (rmat n (qbit_realign_list n qbit_list)).mulVec st0

/-- Lines 112-115 applied after line 109: if a basis is supplied, additionally apply
`kron(bmat, eye(2^(nqbits - len(qbit_list))))` to the reordered state. -/
def qm_state2 (n : ℕ) (qbit_list : List ℕ) (hk : qbit_list.length ≤ n)
    (basis : Option (Matrix (Fin (2 ^ qbit_list.length)) (Fin (2 ^ qbit_list.length)) ℂ))
    (st0 : Fin (2 ^ n) → ℂ) : Fin (2 ^ n) → ℂ :=
  match basis with
  | some B => (castM (pow_split n qbit_list.length hk)
      (npkron B (1 : Matrix (Fin (2 ^ (n - qbit_list.length)))
        (Fin (2 ^ (n - qbit_list.length))) ℂ))).mulVec (qm_state1 n qbit_list st0)
  | none => qm_state1 n qbit_list st0

/-- Lines 153-159: collapse. Every amplitude whose masked bits equal
`to_match = sel << shift_bits` is divided by `sqrt(prob_val)` (no zero-guard);
every other amplitude becomes `0`. -/
def qm_collapse (n k sel : ℕ) (prob_val : ℝ) (st : Fin (2 ^ n) → ℂ) : Fin (2 ^ n) → ℂ :=
  fun i =>
    if i.val &&& qbitmask n k = sel <<< (n - k) then st i / (Real.sqrt prob_val : ℂ)
    else 0

/-- Lines 162-167: if a basis was supplied, apply
`kron(conjugate(transpose(bmat)), eye(2^(nqbits - len(qbit_list))))` to undo the
basis change. -/
def qm_unbasis (n : ℕ) (qbit_list : List ℕ) (hk : qbit_list.length ≤ n)
    (basis : Option (Matrix (Fin (2 ^ qbit_list.length)) (Fin (2 ^ qbit_list.length)) ℂ))
    (st : Fin (2 ^ n) → ℂ) : Fin (2 ^ n) → ℂ :=
  match basis with
  | some B => (castM (pow_split n qbit_list.length hk)
      (npkron (B.transpose.map star) (1 : Matrix (Fin (2 ^ (n - qbit_list.length)))
        (Fin (2 ^ (n - qbit_list.length))) ℂ))).mulVec st
  | none => st

/-- All data produced by one `qmeasure(qbit_list, basis)` call. `ret` is the value
the Python function returns (line 175, `return meas_val`); `stepcount` and
`sys_state` are the simulator-object fields after the call; the other fields expose
the intermediates (`reordered` is the state after the permutation and optional
basis change, `prob` the bucket distribution, `sel`/`prob_val` the selected bucket
and its probability, `collapsed` the state right after the collapse step). -/
structure MeasResult (n : ℕ) where
  err : Option QErr
  stepcount : ℕ
  sys_state : Fin (2 ^ n) → ℂ
  reordered : Fin (2 ^ n) → ℂ
  prob : List ℝ
  sel : ℕ
  prob_val : ℝ
  collapsed : Fin (2 ^ n) → ℂ
  ret : List ℕ

/-- The selected bucket of a `qmeasure` call (line 137-144 applied to the
distribution of the permuted, basis-changed state). -/
def qm_sel (n : ℕ) (sim : SimSt n) (qbit_list : List ℕ) (hk : qbit_list.length ≤ n)
    (basis : Option (Matrix (Fin (2 ^ qbit_list.length)) (Fin (2 ^ qbit_list.length)) ℂ))
    (toss : ℝ) : ℕ :=
  qm_select toss (qm_probs n qbit_list.length (qm_state2 n qbit_list hk basis sim.sys_state))

/-- `prob_val = prob[sel]` (line 145). -/
def qm_pv (n : ℕ) (sim : SimSt n) (qbit_list : List ℕ) (hk : qbit_list.length ≤ n)
    (basis : Option (Matrix (Fin (2 ^ qbit_list.length)) (Fin (2 ^ qbit_list.length)) ℂ))
    (toss : ℝ) : ℝ :=
  (qm_probs n qbit_list.length (qm_state2 n qbit_list hk basis sim.sys_state)).getD
    (qm_sel n sim qbit_list hk basis toss) 0

/-- The result of `qmeasure` when neither validation fails. -/
def qmeasure_main (n : ℕ) (sim : SimSt n) (qbit_list : List ℕ) (hk : qbit_list.length ≤ n)
    (basis : Option (Matrix (Fin (2 ^ qbit_list.length)) (Fin (2 ^ qbit_list.length)) ℂ))
    (toss : ℝ) : MeasResult n :=
  { err := none
    stepcount := sim.stepcount + 1
    sys_state := (rrmat n (qbit_realign_list n qbit_list)).mulVec
      (qm_unbasis n qbit_list hk basis
        (qm_collapse n qbit_list.length (qm_sel n sim qbit_list hk basis toss)
          (qm_pv n sim qbit_list hk basis toss)
          (qm_state2 n qbit_list hk basis sim.sys_state)))
    reordered := qm_state2 n qbit_list hk basis sim.sys_state
    prob := qm_probs n qbit_list.length (qm_state2 n qbit_list hk basis sim.sys_state)
    sel := qm_sel n sim qbit_list hk basis toss
    prob_val := qm_pv n sim qbit_list hk basis toss
    collapsed := qm_collapse n qbit_list.length (qm_sel n sim qbit_list hk basis toss)
      (qm_pv n sim qbit_list hk basis toss)
      (qm_state2 n qbit_list hk basis sim.sys_state)
    ret := qm_ret qbit_list.length (qm_sel n sim qbit_list hk basis toss) }

open scoped Classical

/-- `qmeasure(qbit_list, basis)` with the random draw passed explicitly, following
the source order: `stepcount += 1`; if a basis is supplied and fails the
orthonormality check, raise before touching the state; otherwise permute and
basis-change the state, accumulate the distribution, raise the fatal
total-probability error if it does not sum to `1` within `maxproberr` (the state
mutations so far are kept), and otherwise select, decode, collapse, undo the basis
change, and undo the permutation. -/
def qmeasure (n : ℕ) (sim : SimSt n) (qbit_list : List ℕ) (hk : qbit_list.length ≤ n)
    (basis : Option (Matrix (Fin (2 ^ qbit_list.length)) (Fin (2 ^ qbit_list.length)) ℂ))
    (toss : ℝ) : MeasResult n :=
  if (match basis with | some B => ¬basis_ok B | none => False) then
    { err := some QErr.basisNotOrthonormal
      stepcount := sim.stepcount + 1
      sys_state := sim.sys_state
      reordered := sim.sys_state
      prob := []
      sel := 0
      prob_val := 0
      collapsed := sim.sys_state
      ret := [] }
  else if |(qm_probs n qbit_list.length (qm_state2 n qbit_list hk basis sim.sys_state)).sum
      - 1| > maxproberr then
    { err := some QErr.totalProbability
      stepcount := sim.stepcount + 1
      sys_state := qm_state2 n qbit_list hk basis sim.sys_state
      reordered := qm_state2 n qbit_list hk basis sim.sys_state
      prob := qm_probs n qbit_list.length (qm_state2 n qbit_list hk basis sim.sys_state)
      sel := 0
      prob_val := 0
      collapsed := qm_state2 n qbit_list hk basis sim.sys_state
      ret := [] }
  else
    qmeasure_main n sim qbit_list hk basis toss

/-!
### The sampling rule
-/

theorem qm_select_loop_char (toss : ℝ) (l : List ℝ) (hnn : ∀ p ∈ l, 0 ≤ p)
    (j s0 : ℕ) (c0 : ℝ) :
    (∀ i, i < l.length →
        c0 + (l.take i).sum < toss → toss ≤ c0 + (l.take i).sum + l.getD i 0 →
        ((List.enumFrom j l).foldl
            (fun st ip =>
              (if toss > st.2 ∧ toss ≤ st.2 + ip.2 then ip.1 else st.1, st.2 + ip.2))
            (s0, c0)).1 = j + i) ∧
      ((∀ i, i < l.length →
          ¬(c0 + (l.take i).sum < toss ∧ toss ≤ c0 + (l.take i).sum + l.getD i 0)) →
        ((List.enumFrom j l).foldl
            (fun st ip =>
              (if toss > st.2 ∧ toss ≤ st.2 + ip.2 then ip.1 else st.1, st.2 + ip.2))
            (s0, c0)).1 = s0) := by
  induction l generalizing j s0 c0 with
  | nil =>
    refine ⟨fun i hi => absurd hi (by simp), fun _ => rfl⟩
  | cons a l ih =>
    have hnn' : ∀ p ∈ l, 0 ≤ p := fun p hp => hnn p (List.mem_cons_of_mem _ hp)
    have ha : 0 ≤ a := hnn a (List.mem_cons_self a l)
    have htake : ∀ i, 0 ≤ (l.take i).sum :=
      fun i => List.sum_nonneg fun p hp => hnn' p (List.take_subset i l hp)
    constructor
    · intro i hi h1 h2
      rw [List.enumFrom_cons, List.foldl_cons]
      cases i with
      | zero =>
        simp only [List.take_zero, List.sum_nil, add_zero, List.getD_cons_zero] at h1 h2
        have hcond : toss > c0 ∧ toss ≤ c0 + a := ⟨h1, h2⟩
        rw [if_pos hcond]
        have hres := (ih hnn' (j + 1) j (c0 + a)).2 fun i' hi' => by
          rintro ⟨hlt, -⟩
          have : toss ≤ c0 + a + (l.take i').sum :=
            le_add_of_le_of_nonneg h2 (htake i')
          linarith
        simpa using hres
      | succ i =>
        simp only [List.length_cons, Nat.succ_lt_succ_iff] at hi
        simp only [List.take_succ_cons, List.sum_cons, List.getD_cons_succ] at h1 h2
        have h1' : c0 + a + (l.take i).sum < toss := by linarith
        have h2' : toss ≤ c0 + a + (l.take i).sum + l.getD i 0 := by linarith
        by_cases hcond : toss > c0 ∧ toss ≤ c0 + a
        · exfalso
          have := htake i
          linarith [hcond.2]
        · rw [if_neg hcond]
          have hres := (ih hnn' (j + 1) s0 (c0 + a)).1 i hi h1' h2'
          rw [hres]
          omega
    · intro hno
      rw [List.enumFrom_cons, List.foldl_cons]
      have h0 := hno 0 (by simp)
      simp only [List.take_zero, List.sum_nil, add_zero, List.getD_cons_zero] at h0
      rw [if_neg h0]
      exact (ih hnn' (j + 1) s0 (c0 + a)).2 fun i hi => by
        have hi' := hno (i + 1) (by simpa using Nat.succ_lt_succ hi)
        simp only [List.take_succ_cons, List.sum_cons, List.getD_cons_succ] at hi'
        rintro ⟨hlt, hle⟩
        exact hi' ⟨by linarith, by linarith⟩

/-- Characterization of the outcome selection loop: a bucket whose half-open
cumulative interval contains `toss` is selected; when no interval contains `toss`,
the initial value `len(prob) - 1` survives. -/
theorem qm_select_char (toss : ℝ) (prob : List ℝ) (hnn : ∀ p ∈ prob, 0 ≤ p) :
    (∀ i, i < prob.length →
        (prob.take i).sum < toss → toss ≤ (prob.take i).sum + prob.getD i 0 →
        qm_select toss prob = i) ∧
      ((∀ i, i < prob.length →
          ¬((prob.take i).sum < toss ∧ toss ≤ (prob.take i).sum + prob.getD i 0)) →
        qm_select toss prob = prob.length - 1) := by
  have h := qm_select_loop_char toss prob hnn 0 (prob.length - 1) 0
  constructor
  · intro i hi h1 h2
    have := h.1 i hi (by simpa using h1) (by simpa using h2)
    simpa using this
  · intro hno
    exact h.2 fun i hi => by simpa using hno i hi

theorem qm_probs_length (n k : ℕ) (st : Fin (2 ^ n) → ℂ) :
    (qm_probs n k st).length = 2 ^ k := by
  simp [qm_probs]

theorem qm_probs_nonneg (n k : ℕ) (st : Fin (2 ^ n) → ℂ) :
    ∀ p ∈ qm_probs n k st, 0 ≤ p := by
  intro p hp
  unfold qm_probs at hp
  simp only [List.mem_map] at hp
  obtain ⟨idx, -, rfl⟩ := hp
  refine Finset.sum_nonneg fun i _ => ?_
  by_cases hc : (i.val &&& qbitmask n k) >>> (n - k) = idx
  · rw [if_pos hc]
    exact Complex.normSq_nonneg _
  · rw [if_neg hc]

/-- With `toss = 0`, no half-open interval `(cum, cum + prob]` contains the draw, so
the selection falls back to the last bucket. -/
theorem qm_select_zero (prob : List ℝ) (hnn : ∀ p ∈ prob, 0 ≤ p) :
    qm_select 0 prob = prob.length - 1 := by
  refine (qm_select_char 0 prob hnn).2 fun i hi => ?_
  rintro ⟨hlt, -⟩
  have h0 : 0 ≤ (prob.take i).sum :=
    List.sum_nonneg fun p hp => hnn p (List.take_subset i prob hp)
  linarith

/-- A `qmeasure` call that reports no error took the main path. -/
theorem qmeasure_err_none_eq (n : ℕ) (sim : SimSt n) (qbit_list : List ℕ)
    (hk : qbit_list.length ≤ n)
    (basis : Option (Matrix (Fin (2 ^ qbit_list.length)) (Fin (2 ^ qbit_list.length)) ℂ))
    (toss : ℝ) (herr : (qmeasure n sim qbit_list hk basis toss).err = none) :
    qmeasure n sim qbit_list hk basis toss = qmeasure_main n sim qbit_list hk basis toss := by
  unfold qmeasure at herr ⊢
  by_cases h1 : (match basis with | some B => ¬basis_ok B | none => False)
  · rw [if_pos h1] at herr
    exact absurd herr (by simp)
  · rw [if_neg h1] at herr ⊢
    by_cases h2 : |(qm_probs n qbit_list.length
        (qm_state2 n qbit_list hk basis sim.sys_state)).sum - 1| > maxproberr
    · rw [if_pos h2] at herr
      exact absurd herr (by simp)
    · rw [if_neg h2]

/-- C4. For every probability distribution over `2^k` outcome buckets summing to 1
within tolerance, `qmeasure` samples by drawing one uniform value `t` in `[0,1)`
and selecting the bucket whose half-open cumulative-probability interval
`(cumulative, cumulative + prob]` contains `t`, scanning buckets in index order;
whenever `t` lies outside every interval, the last bucket (index `2^k - 1`) is
selected. The selection function used by `qmeasure` on its success path is exactly
`qm_select`. -/
theorem qmeasure_sampling_rule (k : ℕ) (prob : List ℝ) (toss : ℝ)
    (hlen : prob.length = 2 ^ k) (hnn : ∀ p ∈ prob, 0 ≤ p)
    (hsum : |prob.sum - 1| ≤ maxproberr) (ht0 : 0 ≤ toss) (ht1 : toss < 1) :
    (∀ i, i < prob.length →
        (prob.take i).sum < toss → toss ≤ (prob.take i).sum + prob.getD i 0 →
        qm_select toss prob = i) ∧
      ((∀ i, i < prob.length →
          ¬((prob.take i).sum < toss ∧ toss ≤ (prob.take i).sum + prob.getD i 0)) →
        qm_select toss prob = 2 ^ k - 1) ∧
      ∀ (n : ℕ) (sim : SimSt n) (qbit_list : List ℕ) (hk : qbit_list.length ≤ n)
        (basis : Option (Matrix (Fin (2 ^ qbit_list.length))
          (Fin (2 ^ qbit_list.length)) ℂ)),
        (qmeasure n sim qbit_list hk basis toss).err = none →
        (qmeasure n sim qbit_list hk basis toss).sel =
          qm_select toss (qmeasure n sim qbit_list hk basis toss).prob := by
  obtain ⟨hin, hout⟩ := qm_select_char toss prob hnn
  refine ⟨hin, fun hno => by rw [hout hno, hlen], ?_⟩
  intro n sim qbit_list hk basis herr
  rw [qmeasure_err_none_eq n sim qbit_list hk basis toss herr]
  rfl

/-- Instance of `qmeasure_sampling_rule`: the distribution `[1/2, 1/2]` over one
qubit with `toss = 1/4` selects bucket `0`, whose interval `(0, 1/2]` contains the
draw. -/
theorem qmeasure_sampling_rule_witness : qm_select (1 / 4) [1 / 2, 1 / 2] = 0 :=
  (qmeasure_sampling_rule 1 [1 / 2, 1 / 2] (1 / 4) (by norm_num)
      (by
        intro p hp
        rcases List.mem_cons.mp hp with rfl | hp
        · norm_num
        · rcases List.mem_cons.mp hp with rfl | hp
          · norm_num
          · simp at hp)
      (by norm_num [maxproberr]) (by norm_num) (by norm_num)).1
    0 (by norm_num) (by norm_num) (by norm_num)

/-- C9. In `qmeasure`, a uniform draw of exactly `t = 0` lies in no bucket's
half-open interval (every interval is open at its lower end), so the fallback keeps
the initial `sel = len(prob) - 1` and the last bucket (index `2^k - 1`) is selected
regardless of the distribution — even when that bucket's probability is zero — and
the collapse step divides the surviving amplitudes of the reordered state by
`sqrt(prob_val)` of the selected bucket without any zero-guard. -/
theorem qmeasure_toss_zero_selects_last (n : ℕ) (sim : SimSt n) (qbit_list : List ℕ)
    (hk : qbit_list.length ≤ n)
    (herr : (qmeasure n sim qbit_list hk none 0).err = none) :
    (qmeasure n sim qbit_list hk none 0).sel = 2 ^ qbit_list.length - 1 ∧
      (qmeasure n sim qbit_list hk none 0).prob_val =
        (qmeasure n sim qbit_list hk none 0).prob.getD (2 ^ qbit_list.length - 1) 0 ∧
      ∀ i : Fin (2 ^ n), (qmeasure n sim qbit_list hk none 0).collapsed i =
        if i.val &&& qbitmask n qbit_list.length =
            (qmeasure n sim qbit_list hk none 0).sel <<< (n - qbit_list.length) then
          (qmeasure n sim qbit_list hk none 0).reordered i /
            (Real.sqrt (qmeasure n sim qbit_list hk none 0).prob_val : ℂ)
        else 0 := by
  rw [qmeasure_err_none_eq n sim qbit_list hk none 0 herr]
  have hsel : qm_sel n sim qbit_list hk none 0 = 2 ^ qbit_list.length - 1 := by
    unfold qm_sel
    rw [qm_select_zero _ (qm_probs_nonneg _ _ _), qm_probs_length]
  refine ⟨hsel, ?_, fun i => rfl⟩
  show (qm_probs n qbit_list.length (qm_state2 n qbit_list hk none sim.sys_state)).getD
      (qm_sel n sim qbit_list hk none 0) 0 = _
  rw [hsel]
  rfl

/-- Instance of `qmeasure_toss_zero_selects_last`: measuring the (empty) qubit list
of a trivial one-amplitude register with `toss = 0`. -/
theorem qmeasure_toss_zero_selects_last_witness :
    (qmeasure 0 ⟨0, fun _ => 1⟩ [] (by decide) none 0).sel = 2 ^ ([] : List ℕ).length - 1 ∧
      (qmeasure 0 ⟨0, fun _ => 1⟩ [] (by decide) none 0).prob_val =
        (qmeasure 0 ⟨0, fun _ => 1⟩ [] (by decide) none 0).prob.getD
          (2 ^ ([] : List ℕ).length - 1) 0 ∧
      (qmeasure 0 ⟨0, fun _ => 1⟩ [] (by decide) none 0).collapsed 0 =
        if (0 : Fin (2 ^ 0)).val &&& qbitmask 0 ([] : List ℕ).length =
            (qmeasure 0 ⟨0, fun _ => 1⟩ [] (by decide) none 0).sel <<<
              (0 - ([] : List ℕ).length) then
          (qmeasure 0 ⟨0, fun _ => 1⟩ [] (by decide) none 0).reordered 0 /
            (Real.sqrt (qmeasure 0 ⟨0, fun _ => 1⟩ [] (by decide) none 0).prob_val : ℂ)
        else 0 := by
  refine (fun herr =>
    ⟨(qmeasure_toss_zero_selects_last 0 ⟨0, fun _ => 1⟩ [] (by decide) herr).1,
      (qmeasure_toss_zero_selects_last 0 ⟨0, fun _ => 1⟩ [] (by decide) herr).2.1,
      (qmeasure_toss_zero_selects_last 0 ⟨0, fun _ => 1⟩ [] (by decide) herr).2.2 0⟩) ?_
  have hprob : qm_probs 0 ([] : List ℕ).length
      (qm_state2 0 [] (by decide) none (fun _ => 1)) = [1] := by
    unfold qm_probs qm_state2 qm_state1
    show (List.range 1).map _ = [1]
    rw [show List.range 1 = [0] from by decide, List.map_singleton]
    congr 1
    rw [show (Finset.univ : Finset (Fin (2 ^ 0))) = {0} from rfl]
    rw [Finset.sum_singleton]
    rw [if_pos (by decide)]
    have hst : (rmat 0 (qbit_realign_list 0 [])).mulVec (fun _ => (1 : ℂ)) 0 = 1 := by
      rw [Matrix.mulVec]
      show ∑ j : Fin (2 ^ 0), rmat 0 (qbit_realign_list 0 []) 0 j * 1 = 1
      rw [show (Finset.univ : Finset (Fin (2 ^ 0))) = {0} from rfl, Finset.sum_singleton]
      rw [show rmat 0 (qbit_realign_list 0 []) 0 0 = 1 from by
        unfold rmat
        rw [Matrix.of_apply, if_pos (by decide)]]
      rw [one_mul]
    show Complex.normSq ((rmat 0 (qbit_realign_list 0 []) *ᵥ fun _ => 1) 0) = 1
    rw [hst]
    exact Complex.normSq_one
  unfold qmeasure
  rw [if_neg (by simp)]
  rw [if_neg (by rw [hprob]; norm_num [maxproberr])]
  rfl

/-!
### Invalid basis handling
-/

/-- C7. For every supplied measurement basis whose matrix is square but not
orthonormal (rows times transpose differing from the identity beyond `ε`),
`qmeasure` raises the invalid-basis error (`QClibError`, the spec's
`InvalidBasisError`), and the state vector is exactly the same after the failed
call as before it: the validation happens before any in-place state change. -/
theorem qmeasure_invalid_basis (n : ℕ) (sim : SimSt n) (qbit_list : List ℕ)
    (hk : qbit_list.length ≤ n)
    (B : Matrix (Fin (2 ^ qbit_list.length)) (Fin (2 ^ qbit_list.length)) ℂ)
    (hB : ¬basis_ok B) (toss : ℝ) :
    (qmeasure n sim qbit_list hk (some B) toss).err = some QErr.basisNotOrthonormal ∧
      (qmeasure n sim qbit_list hk (some B) toss).sys_state = sim.sys_state := by
  unfold qmeasure
  rw [if_pos (show (match some B with | some B => ¬basis_ok B | none => False) from hB)]
  exact ⟨rfl, rfl⟩

/-- Instance of `qmeasure_invalid_basis`: the square, non-orthonormal basis matrix
`[[2, 0], [0, 1]]` on a one-qubit register. -/
theorem qmeasure_invalid_basis_witness :
    (qmeasure 1 ⟨0, fun _ => 0⟩ [0] (by decide)
        (some (Matrix.of fun i j : Fin (2 ^ ([0] : List ℕ).length) =>
          if i = 0 ∧ j = 0 then (2 : ℂ) else if i = j then 1 else 0)) 0).err =
      some QErr.basisNotOrthonormal ∧
      (qmeasure 1 ⟨0, fun _ => 0⟩ [0] (by decide)
        (some (Matrix.of fun i j : Fin (2 ^ ([0] : List ℕ).length) =>
          if i = 0 ∧ j = 0 then (2 : ℂ) else if i = j then 1 else 0)) 0).sys_state =
        (fun _ => 0) := by
  refine qmeasure_invalid_basis 1 ⟨0, fun _ => 0⟩ [0] (by decide) _ ?_ 0
  intro h
  have h00 := h 0 0
  rw [if_pos rfl] at h00
  have hmul : ((Matrix.of fun i j : Fin (2 ^ ([0] : List ℕ).length) =>
      if i = 0 ∧ j = 0 then (2 : ℂ) else if i = j then 1 else 0) *
      (Matrix.of fun i j : Fin (2 ^ ([0] : List ℕ).length) =>
        if i = 0 ∧ j = 0 then (2 : ℂ) else if i = j then 1 else 0).transpose) 0 0 = 4 := by
    rw [Matrix.mul_apply]
    show (∑ j : Fin 2, _) = 4
    rw [Fin.sum_univ_two]
    simp [Matrix.transpose_apply]
    norm_num
  rw [hmul] at h00
  norm_num [maxerr] at h00

/-!
### The returned value of `qmeasure`
-/

theorem qm_ret_length (k sel : ℕ) : (qm_ret k sel).length = k := by
  simp [qm_ret]

/-- Entry `j` of the decoded bit list is bit `k - 1 - j` of the selected bucket:
most significant bit first. -/
theorem qm_ret_getD (k sel j : ℕ) (hj : j < k) :
    (qm_ret k sel).getD j 0 = if sel.testBit (k - 1 - j) then 1 else 0 := by
  unfold qm_ret
  rw [List.getD_eq_getElem _ _ (by simpa using hj)]
  simp only [List.getElem_map, List.getElem_reverse, List.getElem_range, List.length_range]
  rw [Nat.shiftLeft_eq, one_mul, Nat.and_two_pow]
  rcases h : sel.testBit (k - 1 - j) with hf | ht
  · simp
  · have h2 : (2 : ℕ) ^ (k - 1 - j) ≠ 0 := (Nat.two_pow_pos _).ne'
    simp [h2]

/-- C6 (amended). For every successful measurement, the value `qmeasure` returns is
the decoded bit list alone: `k` bit values, most significant first, decoding the
selected bucket index (`ret[j]` is bit `k - 1 - j` of `sel`). The selected bucket's
probability appears only in the optional trace output, not in the returned value. -/
theorem qmeasure_returns_decoded_bits (n : ℕ) (sim : SimSt n) (qbit_list : List ℕ)
    (hk : qbit_list.length ≤ n)
    (basis : Option (Matrix (Fin (2 ^ qbit_list.length)) (Fin (2 ^ qbit_list.length)) ℂ))
    (toss : ℝ) (herr : (qmeasure n sim qbit_list hk basis toss).err = none) :
    (qmeasure n sim qbit_list hk basis toss).ret =
        qm_ret qbit_list.length (qmeasure n sim qbit_list hk basis toss).sel ∧
      (qmeasure n sim qbit_list hk basis toss).ret.length = qbit_list.length ∧
      ∀ j, j < qbit_list.length →
        (qmeasure n sim qbit_list hk basis toss).ret.getD j 0 =
          if ((qmeasure n sim qbit_list hk basis toss).sel).testBit
              (qbit_list.length - 1 - j) then 1 else 0 := by
  rw [qmeasure_err_none_eq n sim qbit_list hk basis toss herr]
  refine ⟨rfl, qm_ret_length _ _, fun j hj => qm_ret_getD _ _ j hj⟩

/-- On one qubit, `rmat` built for the ordering `[0]` is the identity. -/
theorem rmat_n1 : rmat 1 (qbit_realign_list 1 [0]) = 1 := by
  have hsc : shuffled_count 1 (qbit_realign_list 1 [0]) = [0, 1] := by decide
  ext i j
  unfold rmat
  rw [Matrix.of_apply, hsc, Matrix.one_apply]
  fin_cases i <;> fin_cases j <;> simp

theorem qm_state2_n1 (hk : ([0] : List ℕ).length ≤ 1) (v : Fin (2 ^ 1) → ℂ) :
    qm_state2 1 [0] hk none v = v := by
  unfold qm_state2 qm_state1
  show (rmat 1 (qbit_realign_list 1 [0])).mulVec v = v
  rw [rmat_n1, Matrix.one_mulVec]

theorem qm_probs_n1 (v : Fin (2 ^ 1) → ℂ) :
    qm_probs 1 1 v = [Complex.normSq (v 0), Complex.normSq (v 1)] := by
  unfold qm_probs
  rw [show List.range (2 ^ 1) = [0, 1] from by decide]
  rw [List.map_cons, List.map_cons, List.map_nil]
  have h0 : (∑ i : Fin (2 ^ 1),
      if (i.val &&& qbitmask 1 1) >>> (1 - 1) = 0 then Complex.normSq (v i) else 0)
      = Complex.normSq (v 0) := by
    show (∑ i : Fin 2, if (i.val &&& qbitmask 1 1) >>> (1 - 1) = 0
      then Complex.normSq (v i) else 0) = _
    rw [Fin.sum_univ_two, if_pos (by decide), if_neg (by decide), add_zero]
  have h1 : (∑ i : Fin (2 ^ 1),
      if (i.val &&& qbitmask 1 1) >>> (1 - 1) = 1 then Complex.normSq (v i) else 0)
      = Complex.normSq (v 1) := by
    show (∑ i : Fin 2, if (i.val &&& qbitmask 1 1) >>> (1 - 1) = 1
      then Complex.normSq (v i) else 0) = _
    rw [Fin.sum_univ_two, if_neg (by decide), if_pos (by decide), zero_add]
  rw [h0, h1]

/-- Concrete run: measuring qubit 0 of `|0⟩` with `toss = 1/5` succeeds, returns
`[0]`, and the selected bucket's probability is `1`. -/
theorem qmeasure_c6_run1 :
    (qmeasure 1 ⟨0, fun i => if i = 0 then 1 else 0⟩ [0] (by decide) none (1 / 5)).err
        = none ∧
      (qmeasure 1 ⟨0, fun i => if i = 0 then 1 else 0⟩ [0] (by decide) none (1 / 5)).ret
        = [0] ∧
      (qmeasure 1 ⟨0, fun i => if i = 0 then 1 else 0⟩ [0]
        (by decide) none (1 / 5)).prob_val = 1 := by
  have hprob : qm_probs 1 ([0] : List ℕ).length
      (qm_state2 1 [0] (by decide) none
        (fun i : Fin (2 ^ 1) => if i = 0 then 1 else 0)) = [1, 0] := by
    show qm_probs 1 1 (qm_state2 1 [0] (by decide) none
      (fun i : Fin (2 ^ 1) => if i = 0 then 1 else 0)) = [1, 0]
    rw [qm_state2_n1, qm_probs_n1]
    norm_num
  have hsel : qm_sel 1 ⟨0, fun i => if i = 0 then 1 else 0⟩ [0] (by decide) none (1 / 5)
      = 0 := by
    unfold qm_sel
    rw [hprob]
    refine (qm_select_char (1 / 5) [1, 0] ?_).1 0 (by norm_num) (by norm_num) (by norm_num)
    intro p hp
    rcases List.mem_cons.mp hp with rfl | hp
    · norm_num
    rcases List.mem_cons.mp hp with rfl | hp
    · norm_num
    · simp at hp
  have herr : (qmeasure 1 ⟨0, fun i => if i = 0 then 1 else 0⟩ [0]
      (by decide) none (1 / 5)).err = none := by
    unfold qmeasure
    rw [if_neg (by simp)]
    rw [if_neg (by rw [hprob]; norm_num [maxproberr])]
    rfl
  refine ⟨herr, ?_, ?_⟩
  · rw [qmeasure_err_none_eq 1 _ [0] (by decide) none (1 / 5) herr]
    show qm_ret ([0] : List ℕ).length (qm_sel 1 _ [0] (by decide) none (1 / 5)) = [0]
    rw [hsel]
    decide
  · rw [qmeasure_err_none_eq 1 _ [0] (by decide) none (1 / 5) herr]
    show (qm_probs 1 ([0] : List ℕ).length (qm_state2 1 [0] (by decide) none _)).getD
      (qm_sel 1 _ [0] (by decide) none (1 / 5)) 0 = 1
    rw [hprob, hsel]
    norm_num

/-- Concrete run: measuring qubit 0 of the state `(3/5, 4/5)` with `toss = 1/5`
succeeds, returns `[0]`, and the selected bucket's probability is `9/25`. -/
theorem qmeasure_c6_run2 :
    (qmeasure 1 ⟨0, fun i => ((if i = 0 then 3 / 5 else 4 / 5 : ℝ) : ℂ)⟩ [0]
        (by decide) none (1 / 5)).err = none ∧
      (qmeasure 1 ⟨0, fun i => ((if i = 0 then 3 / 5 else 4 / 5 : ℝ) : ℂ)⟩ [0]
        (by decide) none (1 / 5)).ret = [0] ∧
      (qmeasure 1 ⟨0, fun i => ((if i = 0 then 3 / 5 else 4 / 5 : ℝ) : ℂ)⟩ [0]
        (by decide) none (1 / 5)).prob_val = 9 / 25 := by
  have hprob : qm_probs 1 ([0] : List ℕ).length
      (qm_state2 1 [0] (by decide) none
        (fun i : Fin (2 ^ 1) => ((if i = 0 then 3 / 5 else 4 / 5 : ℝ) : ℂ)))
      = [9 / 25, 16 / 25] := by
    show qm_probs 1 1 (qm_state2 1 [0] (by decide) none
      (fun i : Fin (2 ^ 1) => ((if i = 0 then 3 / 5 else 4 / 5 : ℝ) : ℂ)))
      = [9 / 25, 16 / 25]
    rw [qm_state2_n1, qm_probs_n1]
    norm_num [Complex.normSq_ofReal]
  have hsel : qm_sel 1 ⟨0, fun i => ((if i = 0 then 3 / 5 else 4 / 5 : ℝ) : ℂ)⟩ [0]
      (by decide) none (1 / 5) = 0 := by
    unfold qm_sel
    rw [hprob]
    refine (qm_select_char (1 / 5) [9 / 25, 16 / 25] ?_).1 0 (by norm_num) (by norm_num)
      (by norm_num)
    intro p hp
    rcases List.mem_cons.mp hp with rfl | hp
    · norm_num
    rcases List.mem_cons.mp hp with rfl | hp
    · norm_num
    · simp at hp
  have herr : (qmeasure 1 ⟨0, fun i => ((if i = 0 then 3 / 5 else 4 / 5 : ℝ) : ℂ)⟩ [0]
      (by decide) none (1 / 5)).err = none := by
    unfold qmeasure
    rw [if_neg (by simp)]
    rw [if_neg (by rw [hprob]; norm_num [maxproberr])]
    rfl
  refine ⟨herr, ?_, ?_⟩
  · rw [qmeasure_err_none_eq 1 _ [0] (by decide) none (1 / 5) herr]
    show qm_ret ([0] : List ℕ).length (qm_sel 1 _ [0] (by decide) none (1 / 5)) = [0]
    rw [hsel]
    decide
  · rw [qmeasure_err_none_eq 1 _ [0] (by decide) none (1 / 5) herr]
    show (qm_probs 1 ([0] : List ℕ).length (qm_state2 1 [0] (by decide) none _)).getD
      (qm_sel 1 _ [0] (by decide) none (1 / 5)) 0 = 9 / 25
    rw [hprob, hsel]
    norm_num

/-- C6 as stated is false on the code: `qmeasure` returns only the decoded bit list
(line 175, `return meas_val`), not the bucket probability. Measuring qubit 0 of
`|0⟩` and of the state `(3/5, 4/5)` with the same draw `toss = 1/5` are both
successful calls returning the same value `[0]`, while the selected buckets'
probabilities differ (`1` versus `9/25`); hence the returned value does not carry
the selected bucket's probability. -/
theorem qmeasure_return_lacks_probability :
    (qmeasure 1 ⟨0, fun i => if i = 0 then 1 else 0⟩ [0] (by decide) none (1 / 5)).err
        = none ∧
      (qmeasure 1 ⟨0, fun i => ((if i = 0 then 3 / 5 else 4 / 5 : ℝ) : ℂ)⟩ [0]
        (by decide) none (1 / 5)).err = none ∧
      (qmeasure 1 ⟨0, fun i => if i = 0 then 1 else 0⟩ [0] (by decide) none (1 / 5)).ret
        = (qmeasure 1 ⟨0, fun i => ((if i = 0 then 3 / 5 else 4 / 5 : ℝ) : ℂ)⟩ [0]
          (by decide) none (1 / 5)).ret ∧
      (qmeasure 1 ⟨0, fun i => if i = 0 then 1 else 0⟩ [0]
          (by decide) none (1 / 5)).prob_val ≠
        (qmeasure 1 ⟨0, fun i => ((if i = 0 then 3 / 5 else 4 / 5 : ℝ) : ℂ)⟩ [0]
          (by decide) none (1 / 5)).prob_val := by
  refine ⟨qmeasure_c6_run1.1, qmeasure_c6_run2.1, ?_, ?_⟩
  · rw [qmeasure_c6_run1.2.1, qmeasure_c6_run2.2.1]
  · rw [qmeasure_c6_run1.2.2, qmeasure_c6_run2.2.2]
    norm_num

/-- Instance of `qmeasure_returns_decoded_bits`: the successful measurement of qubit
0 of `|0⟩` returns a list of exactly one bit. -/
theorem qmeasure_returns_decoded_bits_witness :
    (qmeasure 1 ⟨0, fun i => if i = 0 then 1 else 0⟩ [0]
        (by decide) none (1 / 5)).ret.length = ([0] : List ℕ).length :=
  (qmeasure_returns_decoded_bits 1 ⟨0, fun i => if i = 0 then 1 else 0⟩ [0]
      (by decide) none (1 / 5) qmeasure_c6_run1.1).2.1

/-!
## Untyped layer: numpy shapes and the error paths of `qgate`

`NPMat` models a numpy matrix by its shape and a total entry function (only entries
with both indexes in range are meaningful). This layer captures the shape checks of
`__stretched_mat` and the mutation order of `qgate`, which the dimension-typed
layer above cannot express, and the absence of any qubit-list validation.
-/

/-- A numpy matrix: shape and entries. -/
structure NPMat where
  rows : ℕ
  cols : ℕ
  entry : ℕ → ℕ → ℂ

/-- Untyped matrix product (`*` on `np.matrix`). -/
def npmulU (A B : NPMat) : NPMat :=
  ⟨A.rows, B.cols, fun i j => ∑ t ∈ Finset.range A.cols, A.entry i t * B.entry t j⟩

/-- Untyped Kronecker product (`np.kron`). -/
def npkronU (A B : NPMat) : NPMat :=
  ⟨A.rows * B.rows, A.cols * B.cols,
    fun i j => A.entry (i / B.rows) (j / B.cols) * B.entry (i % B.rows) (j % B.cols)⟩

/-- `np.eye(m)`. -/
def eyeU (m : ℕ) : NPMat :=
  ⟨m, m, fun i j => if i = j then 1 else 0⟩

/-- Untyped `rmat` of `__rmat_rrmat`: row `i` is standard basis row `rr[i]`. -/
def rmatU (n : ℕ) (bitorder : List ℕ) : NPMat :=
  ⟨2 ^ n, 2 ^ n, fun i j => if (shuffled_count n bitorder).getD i 0 = j then 1 else 0⟩

/-- Untyped `rrmat` of `__rmat_rrmat`: starting from the identity, assign row
`rr[i] := imat[i]` for each `i in range(2**nqbits)`. -/
def rrmatU (n : ℕ) (bitorder : List ℕ) : NPMat :=
  ⟨2 ^ n, 2 ^ n,
    (List.range (2 ^ n)).foldl
      (fun acc i => fun s c =>
        if s = (shuffled_count n bitorder).getD i 0 then (if c = i then 1 else 0)
        else acc s c)
      (fun s c => if s = c then 1 else 0)⟩

/-- Untyped `__aligned_op(op, qbit_list)`: `rrmat * op * rmat`. -/
def aligned_opU (n : ℕ) (op : NPMat) (qbit_list : List ℕ) : NPMat :=
  npmulU (npmulU (rrmatU n (qbit_realign_list n qbit_list)) op)
    (rmatU n (qbit_realign_list n qbit_list))

/-- The simulator object: step counter, qubit count, state column vector. -/
structure USim where
  stepcount : ℕ
  nqbits : ℕ
  sys_state : NPMat

/-- The `QClibError`s raised inside `__stretched_mat`. -/
inductive GateErr where
  | notSquare : GateErr
  | qbitCountMismatch : GateErr
deriving DecidableEq

/-- `qgate(oper, qbit_list)` with the shape checks of `__stretched_mat` (lines 67-70
and 315-327): `self.stepcount += 1` executes first; then the operator must be
square (`shape[1] == shape[0]`) and of dimension `2^len(qbit_list)`; only then is
`sys_state` replaced by `a_op * sys_state`. When a check fails, the exception
propagates and the simulator object keeps the incremented step counter and the
unmodified state. -/
def qgateU (sim : USim) (opmat : NPMat) (qbit_list : List ℕ) : USim × Option GateErr :=
  if opmat.cols ≠ opmat.rows then
    ({ sim with stepcount := sim.stepcount + 1 }, some GateErr.notSquare)
  else if 2 ^ qbit_list.length ≠ opmat.rows then
    ({ sim with stepcount := sim.stepcount + 1 }, some GateErr.qbitCountMismatch)
  else
    ({ sim with
        stepcount := sim.stepcount + 1
        sys_state := npmulU
          (aligned_opU sim.nqbits
            (npkronU opmat (eyeU (2 ^ (sim.nqbits - qbit_list.length)))) qbit_list)
          sim.sys_state },
      none)

/-- C10. `qgate` increments the internal step counter before validating its
operator, so a call that fails with a caller/usage error (non-square operator, or
operator dimension not equal to `2^len(qbit_list)`) leaves the state vector
unchanged but leaves the step counter incremented by one. -/
theorem qgate_error_increments_stepcount (sim : USim) (opmat : NPMat)
    (qbit_list : List ℕ)
    (hbad : opmat.cols ≠ opmat.rows ∨ 2 ^ qbit_list.length ≠ opmat.rows) :
    (qgateU sim opmat qbit_list).1.stepcount = sim.stepcount + 1 ∧
      (qgateU sim opmat qbit_list).1.sys_state = sim.sys_state ∧
      (qgateU sim opmat qbit_list).2 ≠ none := by
  unfold qgateU
  rcases hbad with h | h
  · rw [if_pos h]
    exact ⟨rfl, rfl, by simp⟩
  · by_cases h1 : opmat.cols ≠ opmat.rows
    · rw [if_pos h1]
      exact ⟨rfl, rfl, by simp⟩
    · rw [if_neg h1, if_pos h]
      exact ⟨rfl, rfl, by simp⟩

/-- Instance of `qgate_error_increments_stepcount`: a 2x3 operator on a one-qubit
register in the `|0⟩` state. -/
theorem qgate_error_increments_stepcount_witness :
    (qgateU ⟨0, 1, ⟨2, 1, fun i j => if i = 0 ∧ j = 0 then 1 else 0⟩⟩
        ⟨2, 3, fun _ _ => 0⟩ [0]).1.stepcount = 0 + 1 ∧
      (qgateU ⟨0, 1, ⟨2, 1, fun i j => if i = 0 ∧ j = 0 then 1 else 0⟩⟩
        ⟨2, 3, fun _ _ => 0⟩ [0]).1.sys_state =
        ⟨2, 1, fun i j => if i = 0 ∧ j = 0 then 1 else 0⟩ ∧
      (qgateU ⟨0, 1, ⟨2, 1, fun i j => if i = 0 ∧ j = 0 then 1 else 0⟩⟩
        ⟨2, 3, fun _ _ => 0⟩ [0]).2 ≠ none :=
  qgate_error_increments_stepcount _ _ [0] (Or.inl (by decide))

/-- The C-NOT matrix of the gate catalogue (`qcsim.C`), untyped. -/
def cnotU : NPMat :=
  ⟨4, 4, fun i j =>
    if i = 0 ∧ j = 0 then 1
    else if i = 1 ∧ j = 1 then 1
    else if i = 2 ∧ j = 3 then 1
    else if i = 3 ∧ j = 2 then 1
    else 0⟩

/-- C5 refers to validation that is missing from the code (the `TBD` comment at
lines 79-81 of `qmeasure` records the intent): nothing checks the target list for
duplicates or out-of-range indices and no `InvalidQubitListError` exists. For the
duplicate list `[0, 0]` on a 2-qubit register, `__qbit_realign_list` returns the
3-element ordering `[0, 0, 1]` — not a permutation of `[0, 2)` — and `qgate` with
the 4-dimensional C-NOT operator passes both shape checks and proceeds without any
error instead of failing. -/
theorem qbit_list_validation_missing :
    qbit_realign_list 2 [0, 0] = [0, 0, 1] ∧
      ¬List.Perm (qbit_realign_list 2 [0, 0]) (List.range 2) ∧
      (qgateU ⟨0, 2, ⟨4, 1, fun i j => if i = 0 ∧ j = 0 then 1 else 0⟩⟩
        cnotU [0, 0]).2 = none ∧
      (qgateU ⟨0, 2, ⟨4, 1, fun i j => if i = 0 ∧ j = 0 then 1 else 0⟩⟩
        cnotU [0, 0]).1.stepcount = 1 := by
  refine ⟨by decide, by decide, ?_, ?_⟩
  · unfold qgateU
    rw [if_neg (by decide), if_neg (by decide)]
  · unfold qgateU
    rw [if_neg (by decide), if_neg (by decide)]

end

end QCLib
